import Mathlib

/-!
Verification of the reposync mirror daemon against its specification.

The Go sources are shallowly embedded: Go strings and byte slices become
`List Char`, external-process outcomes become explicit inputs, and each
stateful loop becomes a pure step function plus an explicit fold or trace.
The multi-job implementation (the file defining `type job` with `ID`,
`From`, `To`, `HTTPCookie`) is the core the spec describes; the legacy
single-repository `main.go` loop is embedded separately where a claim
cites it.
-/

namespace Reposync

/-- Go strings and byte slices are modelled as lists of characters;
`bytes.Equal` and string `==` become list equality. The nil slice is the
empty list, which is faithful because `bytes.Equal` identifies nil and
empty slices and equality is the only operation the program applies. -/
abbrev Str := List Char

/-- The characters of a Lean string literal, used to transcribe Go literals. -/
def str (s : String) : Str := s.data

/-- Change Detector of the Syncing loop in `job.mirror`: push branches when
the freshly read head differs bytewise from the stored one
(`!bytes.Equal(sha, oldSHA)`), push tags when the `git tag -l` output
differs bytewise from the stored one (`!bytes.Equal(tags, oldTags)`). -/
def detect (oldSHA oldTags sha tags : Str) : Bool × Bool :=
  (!(sha == oldSHA), !(tags == oldTags))

/-- SyncState of a job: `var oldSHA, oldTags []byte` in `job.mirror`. -/
structure SyncState where
  oldSHA : Str
  oldTags : Str
deriving DecidableEq

/-- Externally observed outcomes of one Syncing iteration: whether
`git pull` succeeded, the bytes read from `.git/refs/heads/master`
(`none` on read error), the `git tag -l` output (`none` on error), and
whether each push would succeed if attempted. -/
structure IterObs where
  pullOk : Bool
  refSHA : Option Str
  tagsOut : Option Str
  pushBranchesOk : Bool
  pushTagsOk : Bool
deriving DecidableEq

/-- Status outcome recorded by one Syncing iteration, plus which pushes
were actually attempted. -/
structure IterOutcome where
  ok : Bool
  message : Str
  attemptedPushBranches : Bool
  attemptedPushTags : Bool
deriving DecidableEq

/-- One iteration of the Syncing loop of `job.mirror`: pull, read the head
ref, list tags, apply the change decision, push as needed; any failure
records a failing status and leaves the state for the next iteration
(`continue`); only the fully successful path records "Synced" and assigns
`oldSHA = sha; oldTags = tags`. -/
def syncIter (st : SyncState) (o : IterObs) : SyncState × IterOutcome :=
  if !o.pullOk then (st, ⟨false, str "Pull", false, false⟩)
  else
    match o.refSHA with
    | none => (st, ⟨false, str "parse HEAD", false, false⟩)
    | some sha =>
      match o.tagsOut with
      | none => (st, ⟨false, str "git tag -l", false, false⟩)
      | some tags =>
        let d := detect st.oldSHA st.oldTags sha tags
        if d.1 && !o.pushBranchesOk then
          (st, ⟨false, str "Push", true, false⟩)
        else if d.2 && !o.pushTagsOk then
          (st, ⟨false, str "Push tags", d.1, true⟩)
        else
          (⟨sha, tags⟩, ⟨true, str "Synced", d.1, d.2⟩)

/-- Iterating the Syncing loop over a list of observed iteration inputs,
collecting the recorded outcomes. -/
def syncRun (st : SyncState) (obs : List IterObs) : SyncState × List IterOutcome :=
  match obs with
  | [] => (st, [])
  | o :: rest =>
    let p := syncIter st o
    let q := syncRun p.1 rest
    (q.1, p.2 :: q.2)

/-- Observed outcomes for one iteration of the legacy single-repository
sync loop in `main.go`: pull result, head-ref read, push result. That loop
has no tag handling. -/
structure LegacyObs where
  pullOk : Bool
  refSHA : Option Str
  pushOk : Bool
deriving DecidableEq

/-- Outcome of one legacy iteration: a failing status, a silent skip
("Nothing to push" is only logged, no status recorded), or success. -/
inductive LegacyOutcome where
  | statusFail (msg : Str)
  | nothingToPush
  | synced
deriving DecidableEq

/-- One iteration of the legacy sync loop in `main.go`: after a successful
pull and ref read, `oldSHA = string(sha)` is executed before the push is
attempted, so the function returns the already-advanced snapshot even when
the push fails. -/
def legacySyncIter (oldSHA : Str) (o : LegacyObs) : Str × LegacyOutcome :=
  if !o.pullOk then (oldSHA, .statusFail (str "Pull"))
  else
    match o.refSHA with
    | none => (oldSHA, .statusFail (str "parse HEAD"))
    | some sha =>
      if sha == oldSHA then (oldSHA, .nothingToPush)
      else
        if !o.pushOk then (sha, .statusFail (str "Push"))
        else (sha, .synced)

/-- C2: the Change Detector is a pure function of the four arguments; with
identical previous and current values it yields `{false, false}`; a head
change with an unchanged tag-set yields `{true, false}`; an unchanged head
with a changed tag-set yields `{false, true}`; equality is byte-exact
(list equality on the opaque byte values). -/
theorem detect_pure_idempotent_and_directional
    (h t h1 h2 t1 t2 : Str) :
    detect h t h t = (false, false) ∧
    (h1 ≠ h2 → detect h1 t h2 t = (true, false)) ∧
    (t1 ≠ t2 → detect h t1 h t2 = (false, true)) := by
  refine ⟨?_, ?_, ?_⟩
  · simp [detect]
  · intro hne
    simp [detect, beq_eq_false_iff_ne]
    exact fun e => hne e.symm
  · intro tne
    simp [detect, beq_eq_false_iff_ne]
    exact fun e => tne e.symm

/-- Witness for C2 at concrete byte values. -/
theorem detect_pure_idempotent_and_directional_witness :
    detect (str "a") (str "t") (str "a") (str "t") = (false, false) ∧
    detect (str "a") (str "t") (str "b") (str "t") = (true, false) ∧
    detect (str "a") (str "t") (str "a") (str "u") = (false, true) := by
  obtain ⟨p1, p2, p3⟩ :=
    detect_pure_idempotent_and_directional
      (str "a") (str "t") (str "a") (str "b") (str "t") (str "u")
  exact ⟨p1, p2 (by decide), p3 (by decide)⟩

/-- A failing iteration of the multi-job Syncing loop leaves the
SyncState unchanged. -/
theorem syncIter_fail_preserves (st : SyncState) (o : IterObs) :
    (syncIter st o).2.ok = false → (syncIter st o).1 = st := by
  rcases o with ⟨pullOk, refSHA, tagsOut, pbOk, ptOk⟩
  cases pullOk <;> simp [syncIter]
  cases refSHA <;> simp
  cases tagsOut <;> simp
  split
  · simp
  · split <;> simp

/-- C1 counterexample (legacy `main.go` loop, cited by the claim): an
iteration whose pull and ref read succeed but whose push fails records a
failing "Push" status yet leaves the snapshot advanced to the new head
"new", no longer equal to its pre-iteration value "old". -/
theorem legacy_push_failure_advances_snapshot :
    (legacySyncIter (str "old") ⟨true, some (str "new"), false⟩).2
      = .statusFail (str "Push") ∧
    (legacySyncIter (str "old") ⟨true, some (str "new"), false⟩).1 = str "new" ∧
    str "new" ≠ str "old" := by
  decide

/-- C1 (amended to the multi-job `job.mirror` loop): the snapshot is
advanced to the just-observed head and tag values exactly when an
iteration fully succeeds; any failing iteration, and any run of N
consecutive failing iterations, leaves the snapshot unchanged. -/
theorem syncState_advances_exactly_on_full_success
    (st st2 st3 : SyncState) (o o2 : IterObs) (sha tags : Str)
    (obs : List IterObs) :
    ((syncIter st o).2.ok = false → (syncIter st o).1 = st) ∧
    (o2.refSHA = some sha → o2.tagsOut = some tags →
      (syncIter st2 o2).2.ok = true → (syncIter st2 o2).1 = ⟨sha, tags⟩) ∧
    ((∀ r ∈ (syncRun st3 obs).2, r.ok = false) → (syncRun st3 obs).1 = st3) := by
  refine ⟨syncIter_fail_preserves st o, ?_, ?_⟩
  · intro hsha htags hok
    rcases o2 with ⟨pullOk, refSHA, tagsOut, pbOk, ptOk⟩
    cases hsha
    cases htags
    cases pullOk
    · simp [syncIter] at hok
    · cases hpb : pbOk <;> cases hpt : ptOk <;>
        cases hb : (detect st2.oldSHA st2.oldTags sha tags).1 <;>
        cases ht : (detect st2.oldSHA st2.oldTags sha tags).2 <;>
        simp_all [syncIter]
  · induction obs generalizing st3 with
    | nil => intro _; rfl
    | cons o rest ih =>
      intro hall
      simp only [syncRun] at hall ⊢
      have h1 : (syncIter st3 o).2.ok = false :=
        hall _ (List.mem_cons_self _ _)
      have h2 := syncIter_fail_preserves st3 o h1
      rw [h2] at hall ⊢
      exact ih st3 fun r hr => hall r (List.mem_cons_of_mem _ hr)

/-- Witness for C1's amended theorem at concrete inputs: a failed pull
preserves the state, a successful iteration advances it to the observed
values, and two consecutive failing iterations preserve it. -/
theorem syncState_advances_exactly_on_full_success_witness :
    (syncIter ⟨str "h", str "t"⟩ ⟨false, some (str "n"), some (str "u"), true, true⟩).1
      = ⟨str "h", str "t"⟩ ∧
    (syncIter ⟨str "h", str "t"⟩ ⟨true, some (str "n"), some (str "u"), true, true⟩).1
      = ⟨str "n", str "u"⟩ ∧
    (syncRun ⟨str "h", str "t"⟩
      [⟨false, none, none, true, true⟩, ⟨false, none, none, true, true⟩]).1
      = ⟨str "h", str "t"⟩ := by
  obtain ⟨p1, p2, p3⟩ :=
    syncState_advances_exactly_on_full_success
      ⟨str "h", str "t"⟩ ⟨str "h", str "t"⟩ ⟨str "h", str "t"⟩
      ⟨false, some (str "n"), some (str "u"), true, true⟩
      ⟨true, some (str "n"), some (str "u"), true, true⟩
      (str "n") (str "u")
      [⟨false, none, none, true, true⟩, ⟨false, none, none, true, true⟩]
  exact ⟨p1 (by decide), p2 rfl rfl (by decide), p3 (by decide)⟩

/-- C4 counterexample: on the first-ever iteration (empty prior snapshot)
observing head "abc" and an empty tag list, the tag push is NOT attempted
— the empty `git tag -l` output compares bytewise equal to the initial nil
snapshot — refuting the claim that both pushes are attempted. -/
theorem first_iteration_empty_tags_no_tag_push :
    (syncIter ⟨[], []⟩ ⟨true, some (str "abc"), some [], true, true⟩).2.ok = true ∧
    (syncIter ⟨[], []⟩
      ⟨true, some (str "abc"), some [], true, true⟩).2.attemptedPushBranches = true ∧
    (syncIter ⟨[], []⟩
      ⟨true, some (str "abc"), some [], true, true⟩).2.attemptedPushTags = false := by
  decide

/-- C4 (amended): on the first-ever iteration observing head "abc" and an
empty tag list, only the branch push is attempted (the empty tag list
compares equal to the absent prior snapshot); on success the status is
ok=true with message "Synced" and the snapshot becomes ("abc", []). -/
theorem first_iteration_full_evaluation :
    syncIter ⟨[], []⟩ ⟨true, some (str "abc"), some [], true, true⟩
      = (⟨str "abc", []⟩, ⟨true, str "Synced", true, false⟩) := by
  decide

/-- Newline character appended by `Fprintln`. -/
def nl : Char := Char.ofNat 10

/-- Decimal rendering of the integer time model, standing in for Go's
`time.Time` formatting in the status body. -/
def intStr (i : Int) : Str := (toString i).data

/-- StatusRecord of the multi-job implementation: the mutex-protected
fields of `type job` written by `job.status`. Times are integer seconds. -/
structure StatusRecord where
  lastOK : Int
  statusTime : Int
  statusOK : Bool
  statusMessage : Str
deriving DecidableEq

/-- The composed log body built by `job.status` in its buffer: the message
and then each stringified detail value, each followed by a newline. -/
def composeDetails (msg : Str) (details : List Str) : Str :=
  (msg ++ [nl]) ++ (details.map (fun d => d ++ [nl])).flatten

/-- `job.status` of the multi-job implementation: under the lock it stores
the ok flag, the raw `msg` argument as the status message, the current
time, and (when ok) the last-success time; the detail values go only into
the buffer that is logged (second component, before the `logf`
redaction). -/
def status (r : StatusRecord) (now : Int) (ok : Bool) (msg : Str)
    (details : List Str) : StatusRecord × Str :=
  ({ lastOK := if ok then now else r.lastOK
     statusTime := now
     statusOK := ok
     statusMessage := msg },
   (if ok then str "OK: " else str "FAIL: ") ++ composeDetails msg details)

/-- Read view of one job's StatusRecord as the `/status` handler renders
it, labelled by the job id. -/
structure JobView where
  id : Str
  statusOK : Bool
  lastOK : Int
  statusTime : Int
  statusMessage : Str
deriving DecidableEq

/-- The view `statusz` takes of a job under its lock. -/
def jobView (id : Str) (r : StatusRecord) : JobView :=
  ⟨id, r.statusOK, r.lastOK, r.statusTime, r.statusMessage⟩

/-- HTTP status code of the multi-job `/status` handler `statusz`: the
first loop calls `WriteHeader(500)` for any job whose last successful
status is older than 15 minutes (`time.Since(j.lastOK) > 15*time.Minute`);
when no job is stale, the first body write sends the implicit 200. Times
are integer seconds. -/
def statuszCode (now : Int) (js : List JobView) : Nat :=
  if js.any (fun j => decide (15 * 60 < now - j.lastOK)) then 500 else 200

/-- The per-job block written by the second loop of `statusz`. -/
def statuszEntry (j : JobView) : Str :=
  str "---- repo " ++ j.id ++ str " ----" ++ [nl] ++
  str "OK now?    " ++ (if j.statusOK then str "true" else str "false") ++ [nl] ++
  str "Last OK:   " ++ intStr j.lastOK ++ [nl] ++
  str "Last try:  " ++ intStr j.statusTime ++ [nl] ++
  j.statusMessage ++ [nl]

/-- C3 counterexample: a job whose ok flag is false but whose last success
is recent (here both times equal `now`) yields HTTP 200 from `statusz`,
not a 5xx status — the multi-job handler checks only staleness of
`lastOK`, never the ok flag. -/
theorem statusOK_false_but_fresh_yields_200 :
    statuszCode 100 [⟨str "a", false, 100, 100, str "Push"⟩] = 200 ∧
    (⟨str "a", false, 100, 100, str "Push"⟩ : JobView).statusOK = false := by
  decide

/-- C3 (amended): the `/status` response of the multi-job implementation
carries status 500 exactly when some job's last-success timestamp is older
than the fixed 15-minute threshold, and 200 otherwise; a false ok flag
without staleness does not change the status code. -/
theorem statuszCode_500_iff_stale (now : Int) (js : List JobView) :
    (statuszCode now js = 500 ↔ ∃ j ∈ js, 15 * 60 < now - j.lastOK) ∧
    (statuszCode now js = 200 ↔ ∀ j ∈ js, now - j.lastOK ≤ 15 * 60) := by
  have key : (js.any (fun j => decide (15 * 60 < now - j.lastOK)) = true)
      ↔ ∃ j ∈ js, 15 * 60 < now - j.lastOK := by
    simp
  unfold statuszCode
  split
  next hc =>
    obtain ⟨j, hj, hlt⟩ := key.mp hc
    refine ⟨⟨fun _ => key.mp hc, fun _ => rfl⟩, ⟨fun h => ?_, fun hall => ?_⟩⟩
    · exact absurd h (by decide)
    · exact absurd hlt (not_lt.mpr (hall j hj))
  next hc =>
    have hall : ∀ j ∈ js, now - j.lastOK ≤ 15 * 60 := by
      intro j hj
      by_contra hlt
      exact hc (key.mpr ⟨j, hj, lt_of_not_le hlt⟩)
    refine ⟨⟨fun h => absurd h (by decide), fun hex => ?_⟩,
            ⟨fun _ => hall, fun _ => rfl⟩⟩
    obtain ⟨j, hj, hlt⟩ := hex
    exact absurd hlt (not_lt.mpr (hall j hj))

/-- C10: after every `job.status` call the stored status message equals
exactly the `msg` argument; the resulting StatusRecord — and hence the
block the `/status` endpoint renders from it — is independent of the
variadic detail values, which reach only the log buffer. -/
theorem statusRecord_message_is_exact_stage_string
    (r : StatusRecord) (now : Int) (ok : Bool) (msg : Str)
    (details d1 d2 : List Str) (id : Str) :
    (status r now ok msg details).1.statusMessage = msg ∧
    (status r now ok msg d1).1 = (status r now ok msg d2).1 ∧
    statuszEntry (jobView id (status r now ok msg d1).1)
      = statuszEntry (jobView id (status r now ok msg d2).1) := by
  refine ⟨rfl, rfl, rfl⟩

/-- One configured job as parsed from the REPOS json. -/
structure JobCfg where
  id : Str
  fromURL : Str
  toURL : Str
  httpCookie : Str
deriving DecidableEq

/-- The marker recognized by `reconcile`. -/
def metaMarker : Str := str "metadata:"

/-- `reconcile`: returns the value unchanged unless it is prefixed with
"metadata:", in which case the remainder is looked up on the metadata
server (modelled as a partial lookup function); a failed lookup is fatal,
modelled as `none`. -/
def reconcile (metaLookup : Str → Option Str) (s : Str) : Option Str :=
  if metaMarker.isPrefixOf s then metaLookup (s.drop metaMarker.length)
  else some s

/-- The per-job startup loop of `main` in the multi-job implementation:
for each job in order it aborts on an empty ID, on an empty From or To,
or on a failed metadata resolution of From or To, and otherwise resolves
the endpoints and starts the job. No other per-job check is performed. -/
def validateJobs (metaLookup : Str → Option Str) :
    List JobCfg → Except Str (List JobCfg)
  | [] => .ok []
  | j :: rest =>
    if j.id = [] then .error (str "Missing ID for job")
    else if j.fromURL = [] ∨ j.toURL = [] then
      .error (str "Empty from or to for job")
    else
      match reconcile metaLookup j.fromURL with
      | none => .error (str "Could not get project metadata value")
      | some f =>
        match reconcile metaLookup j.toURL with
        | none => .error (str "Could not get project metadata value")
        | some t =>
          match validateJobs metaLookup rest with
          | .error e => .error e
          | .ok js => .ok ({ j with fromURL := f, toURL := t } :: js)

/-- A configuration with two jobs sharing the ID "a". -/
def dupJobs : List JobCfg :=
  [⟨str "a", str "u1", str "u2", []⟩, ⟨str "a", str "u3", str "u4", []⟩]

/-- C6 counterexample: a job list with a duplicate ID passes the startup
checks — `main` performs no uniqueness check, so duplicate job IDs do not
abort the process. -/
theorem duplicate_job_ids_not_rejected :
    (validateJobs (fun _ => none) dupJobs).isOk = true ∧
    dupJobs.map JobCfg.id = [str "a", str "a"] := by
  constructor
  · rfl
  · rfl

/-- C6 (amended): startup validation succeeds exactly when every job has a
non-empty ID, non-empty From and To endpoints, and resolvable
metadata-prefixed values; these are the per-job fatal categories, and
duplicate job IDs are not checked. -/
theorem validateJobs_ok_iff (metaLookup : Str → Option Str)
    (cfgs : List JobCfg) :
    (validateJobs metaLookup cfgs).isOk = true ↔
      ∀ j ∈ cfgs, j.id ≠ [] ∧ j.fromURL ≠ [] ∧ j.toURL ≠ [] ∧
        (reconcile metaLookup j.fromURL).isSome = true ∧
        (reconcile metaLookup j.toURL).isSome = true := by
  induction cfgs with
  | nil => simp [validateJobs, Except.isOk, Except.toBool]
  | cons j rest ih =>
    simp only [validateJobs]
    by_cases hid : j.id = []
    · simp [hid, Except.isOk, Except.toBool]
    · by_cases hft : j.fromURL = [] ∨ j.toURL = []
      · simp only [hid, hft, if_false, if_true, Except.isOk, Except.toBool]
        simp only [List.mem_cons, forall_eq_or_imp]
        rcases hft with hf | ht
        · simp [hf]
        · simp [ht]
      · push_neg at hft
        simp only [hid, hft, if_false, ite_false]
        rcases hrf : reconcile metaLookup j.fromURL with _ | f
        · simp [Except.isOk, Except.toBool, hrf, hid, hft]
        · rcases hrt : reconcile metaLookup j.toURL with _ | t
          · simp [Except.isOk, Except.toBool, hrf, hrt, hid, hft]
          · rcases hrest : validateJobs metaLookup rest with e | js
            · rw [hrest] at ih
              simp only [Except.isOk, Except.toBool] at ih ⊢
              simp [hrf, hrt, hid, hft, ← ih]
            · rw [hrest] at ih
              simp only [Except.isOk, Except.toBool] at ih ⊢
              simp [hrf, hrt, hid, hft, ← ih]

/-- Phases of the per-job Mirror Engine bootstrap. -/
inductive EnginePhase where
  | cloning
  | settingUpCredentials
  | addingRemote
  | syncing
deriving DecidableEq

/-- The engine phase after `n` clone attempts with the given per-attempt
outcomes: the clone loop of `job.mirror` stays in place until an attempt
succeeds (`break`), after which control reaches the credential setup. -/
def clonePhaseAfter (outcome : Nat → Bool) : Nat → EnginePhase
  | 0 => .cloning
  | n + 1 =>
    match clonePhaseAfter outcome n with
    | .cloning =>
      if outcome n then .settingUpCredentials else .cloning
    | p => p

/-- Effects of one clone attempt, as written in the clone loop: a success
records an ok "Cloned" status and leaves the loop; a failure records a
failing "Cloning" status, deletes the working directory (`os.RemoveAll`),
and sleeps a fixed number of seconds before retrying. -/
inductive CloneAction where
  | exitLoopRecordOk (msg : Str)
  | recordFailRemoveDirSleep (msg : Str) (seconds : Nat)
deriving DecidableEq

/-- The action taken by one iteration of the clone loop. -/
def cloneIterAction (success : Bool) : CloneAction :=
  if success then .exitLoopRecordOk (str "Cloned")
  else .recordFailRemoveDirSleep (str "Cloning") 10

/-- C7: while every clone attempt fails the engine stays in the Cloning
state — for any number n of failures, so there is no maximum retry count;
each failing attempt records a failing status, deletes the working
directory and sleeps the fixed 10 seconds; and the engine leaves the
Cloning state after attempt n exactly when it had already left or attempt
n succeeds. -/
theorem cloning_retries_forever_until_success
    (outcome : Nat → Bool) (n m : Nat) :
    ((∀ i, i < n → outcome i = false) → clonePhaseAfter outcome n = .cloning) ∧
    (outcome m = false →
      cloneIterAction (outcome m)
        = .recordFailRemoveDirSleep (str "Cloning") 10) ∧
    (clonePhaseAfter outcome (n + 1) = .settingUpCredentials ↔
      (clonePhaseAfter outcome n = .settingUpCredentials ∨
        (clonePhaseAfter outcome n = .cloning ∧ outcome n = true))) := by
  refine ⟨?_, ?_, ?_⟩
  · intro hall
    induction n with
    | zero => rfl
    | succ k ih =>
      have hk : clonePhaseAfter outcome k = .cloning :=
        ih fun i hi => hall i (Nat.lt_succ_of_lt hi)
      simp [clonePhaseAfter, hk, hall k (Nat.lt_succ_self k)]
  · intro hm
    simp [cloneIterAction, hm]
  · cases h : clonePhaseAfter outcome n with
    | cloning =>
      cases ho : outcome n <;> simp [clonePhaseAfter, h, ho]
    | settingUpCredentials => simp [clonePhaseAfter, h]
    | addingRemote => simp [clonePhaseAfter, h]
    | syncing => simp [clonePhaseAfter, h]

/-- Witness for C7 with three consecutive failures. -/
theorem cloning_retries_forever_until_success_witness :
    clonePhaseAfter (fun _ => false) 3 = .cloning ∧
    cloneIterAction ((fun _ => false) 5)
      = .recordFailRemoveDirSleep (str "Cloning") 10 := by
  obtain ⟨p1, p2, p3⟩ :=
    cloning_retries_forever_until_success (fun _ => false) 3 5
  exact ⟨p1 (fun i _ => rfl), p2 rfl⟩

/-- `job.dir`: the per-job working directory name. -/
def dir (id : Str) : Str := str "repo-" ++ id

/-- `job.cookiefile`: the per-job cookie file name, a sibling of the
working directory in the process working directory. -/
def cookiefile (id : Str) : Str := str "cookies-" ++ id

/-- Permission bits passed to `ioutil.WriteFile` for the cookie file:
octal 400, owner read only. -/
def cookieFileMode : Nat := 0o400

/-- Result of the credential-setup phase of `job.mirror`. -/
structure CredResult where
  statuses : List (Bool × Str)
  writesAttempted : Nat
  next : EnginePhase
deriving DecidableEq

/-- The credential-setup phase of `job.mirror`: when an HTTP cookie is
configured, write it once to the cookie file and run
`git config http.cookiefile` (this runs even when the write failed);
each failure records a failing status; whatever happens, control falls
through to the remote-adding loop. -/
def credentialPhase (cookie : Str) (writeOk configOk : Bool) : CredResult :=
  if cookie = [] then ⟨[], 0, .addingRemote⟩
  else
    ⟨(if writeOk then []
      else [(false, str "Writing HTTP cookie file")]) ++
       (if configOk then [(true, str "Set http.cookiefile")]
        else [(false, str "Set cookie file")]),
     1, .addingRemote⟩

/-- C8 counterexample: the cookie file mode is octal 400 (owner read
only), not the claimed owner read/write (octal 600), and the file
"cookies-a" is a sibling of the working directory "repo-a", not inside
it. -/
theorem cookie_file_mode_and_location :
    cookieFileMode = 0o400 ∧ cookieFileMode ≠ 0o600 ∧
    dir (str "a") = str "repo-a" ∧
    cookiefile (str "a") = str "cookies-a" ∧
    ¬ (str "repo-a/") <+: cookiefile (str "a") := by
  decide

/-- C8 (amended): when a cookie is configured it is written once (to the
sibling file, with owner-read-only mode 0400); a failed write or a failed
`git config` records a failing status; and the engine proceeds to the
AddingRemote state regardless of either failure. -/
theorem credential_setup_best_effort (cookie : Str) (writeOk configOk : Bool) :
    (credentialPhase cookie writeOk configOk).next = .addingRemote ∧
    (cookie ≠ [] → writeOk = false →
      (false, str "Writing HTTP cookie file")
        ∈ (credentialPhase cookie writeOk configOk).statuses) ∧
    (cookie ≠ [] → configOk = false →
      (false, str "Set cookie file")
        ∈ (credentialPhase cookie writeOk configOk).statuses) ∧
    ((credentialPhase cookie writeOk configOk).writesAttempted
      = if cookie = [] then 0 else 1) ∧
    cookieFileMode = 0o400 := by
  by_cases hc : cookie = [] <;>
    cases writeOk <;> cases configOk <;>
    simp [credentialPhase, hc, cookieFileMode]

/-- Witness for C8 with a configured cookie and both steps failing. -/
theorem credential_setup_best_effort_witness :
    (credentialPhase (str "c") false false).next = .addingRemote ∧
    (false, str "Writing HTTP cookie file")
      ∈ (credentialPhase (str "c") false false).statuses ∧
    (false, str "Set cookie file")
      ∈ (credentialPhase (str "c") false false).statuses := by
  obtain ⟨p1, p2, p3, p4, p5⟩ :=
    credential_setup_best_effort (str "c") false false
  exact ⟨p1, p2 (by decide) rfl, p3 (by decide) rfl⟩

/-- Fuelled scanner behind `replaceAll`; the fuel is an upper bound on the
text length, making the recursion structural (and hence evaluable inside
the kernel). -/
def replaceAllFuel (pat rep : Str) : Nat → Str → Str
  | _, [] => []
  | 0, t => t
  | fuel + 1, c :: cs =>
    match pat with
    | [] => c :: cs
    | p :: ps =>
      if (p :: ps) <+: (c :: cs) then
        rep ++ replaceAllFuel pat rep fuel (cs.drop ps.length)
      else
        c :: replaceAllFuel pat rep fuel cs

/-- Go's `strings.ReplaceAll` / `bytes.Replace` with count -1: scan left
to right; whenever the pattern is a prefix of the remaining text, emit the
replacement and skip the pattern; otherwise keep one character. Go would
interleave the replacement between characters for an empty pattern; the
program only ever replaces the non-empty From/To values, and this model
returns the text unchanged for an empty pattern. -/
def replaceAll (s pat rep : Str) : Str :=
  replaceAllFuel pat rep s.length s

/-- The scanner is insensitive to the exact fuel once it covers the text
length. -/
theorem replaceAllFuel_irrel (pat rep : Str) :
    ∀ f1 f2 s, s.length ≤ f1 → s.length ≤ f2 →
      replaceAllFuel pat rep f1 s = replaceAllFuel pat rep f2 s := by
  intro f1
  induction f1 with
  | zero =>
    intro f2 s hs1 _
    have hs0 : s = [] := List.length_eq_zero.mp (Nat.le_zero.mp hs1)
    subst hs0
    cases f2 <;> rfl
  | succ g1 ih =>
    intro f2 s hs1 hs2
    match s with
    | [] => cases f2 <;> rfl
    | c :: cs =>
      match f2 with
      | 0 => exact absurd hs2 (by simp)
      | g2 + 1 =>
        match pat with
        | [] => rfl
        | p :: ps =>
          simp only [replaceAllFuel]
          simp only [List.length_cons] at hs1 hs2
          by_cases hp : (p :: ps) <+: (c :: cs)
          · simp only [if_pos hp]
            have hd : (cs.drop ps.length).length ≤ g1 := by
              simp only [List.length_drop]
              omega
            have hd2 : (cs.drop ps.length).length ≤ g2 := by
              simp only [List.length_drop]
              omega
            rw [ih g2 _ hd hd2]
          · simp only [if_neg hp]
            rw [ih g2 cs (by omega) (by omega)]

/-- Unfolding: an empty pattern leaves the text unchanged. -/
theorem replaceAll_pat_nil (s rep : Str) : replaceAll s [] rep = s := by
  cases s <;> rfl

/-- Unfolding: empty input yields empty output. -/
theorem replaceAll_nil_left (pat rep : Str) : replaceAll [] pat rep = [] := by
  rfl

/-- Unfolding: a match at the front is replaced and skipped. -/
theorem replaceAll_cons_pos (c : Char) (cs : Str) (p : Char) (ps rep : Str)
    (h : (p :: ps) <+: (c :: cs)) :
    replaceAll (c :: cs) (p :: ps) rep
      = rep ++ replaceAll (cs.drop ps.length) (p :: ps) rep := by
  show replaceAllFuel (p :: ps) rep (cs.length + 1) (c :: cs) = _
  simp only [replaceAllFuel, if_pos h]
  rw [replaceAllFuel_irrel (p :: ps) rep cs.length (cs.drop ps.length).length
    (cs.drop ps.length) (by simp only [List.length_drop]; omega) le_rfl]
  rfl

/-- Unfolding: with no match at the front one character is kept. -/
theorem replaceAll_cons_neg (c : Char) (cs : Str) (p : Char) (ps rep : Str)
    (h : ¬ (p :: ps) <+: (c :: cs)) :
    replaceAll (c :: cs) (p :: ps) rep = c :: replaceAll cs (p :: ps) rep := by
  show replaceAllFuel (p :: ps) rep (cs.length + 1) (c :: cs) = _
  simp only [replaceAllFuel, if_neg h]
  rfl

/-- A word none of whose characters occur in a list prefix `a` and that is
an infix of `a ++ b` is an infix of `b`. -/
theorem infixDisjointAppend (q : Str) (hq : q ≠ []) :
    ∀ a b : Str, (∀ x ∈ a, x ∉ q) → q <:+: a ++ b → q <:+: b := by
  intro a
  induction a with
  | nil =>
    intro b _ h
    simpa using h
  | cons x a2 ih =>
    intro b hdisj hin
    rw [List.cons_append] at hin
    rcases List.infix_cons_iff.mp hin with hpre | hinf
    · rcases List.prefix_cons_iff.mp hpre with h0 | ⟨t, hqt, _⟩
      · exact absurd h0 hq
      · exact absurd (hqt ▸ List.mem_cons_self x t)
          (hdisj x (List.mem_cons_self x a2))
    · exact ih b (fun y hy => hdisj y (List.mem_cons_of_mem x hy)) hinf

/-- A word none of whose characters occur in the (non-empty) replacement
and that is a prefix of `replaceAll s pat rep` is a prefix of `s`: the
output's leading characters up to the first replaced region are kept
input characters. -/
theorem prefixThroughReplace (rep : Str) (hrep : rep ≠ []) :
    ∀ s pat q : Str, (∀ a ∈ rep, a ∉ q) →
      q <+: replaceAll s pat rep → q <+: s := by
  rcases rep with _ | ⟨r, rs⟩
  · exact absurd rfl hrep
  · intro s
    induction s with
    | nil =>
      intro pat q _ h
      rw [replaceAll_nil_left] at h
      exact h
    | cons c cs ih =>
      intro pat q hdisj h
      match pat with
      | [] =>
        rw [replaceAll_pat_nil] at h
        exact h
      | p :: ps =>
        by_cases hp : (p :: ps) <+: (c :: cs)
        · rw [replaceAll_cons_pos c cs p ps _ hp, List.cons_append] at h
          rcases List.prefix_cons_iff.mp h with h0 | ⟨t, hqt, _⟩
          · subst h0
            exact List.nil_prefix
          · exact absurd (hqt ▸ List.mem_cons_self r t)
              (hdisj r (List.mem_cons_self r rs))
        · rw [replaceAll_cons_neg c cs p ps _ hp] at h
          rcases List.prefix_cons_iff.mp h with h0 | ⟨t, hqt, htp⟩
          · subst h0
            exact List.nil_prefix
          · subst hqt
            have ht : t <+: cs :=
              ih (p :: ps) t
                (fun a ha hat => hdisj a ha (List.mem_cons_of_mem c hat)) htp
            exact List.cons_prefix_cons.mpr ⟨rfl, ht⟩

/-- Fueled form: a non-empty word disjoint from the (non-empty)
replacement that is an infix of `replaceAll s pat rep` already occurs in
`s` — replacement cannot manufacture occurrences of such a word. -/
theorem infixThroughReplaceFuel (rep : Str) (hrep : rep ≠ []) :
    ∀ n : Nat, ∀ s pat q : Str, s.length ≤ n → q ≠ [] →
      (∀ a ∈ rep, a ∉ q) → q <:+: replaceAll s pat rep → q <:+: s := by
  intro n
  induction n with
  | zero =>
    intro s pat q hs hq hdisj hin
    have hs0 : s = [] := List.length_eq_zero.mp (Nat.le_zero.mp hs)
    subst hs0
    rw [replaceAll_nil_left, List.infix_nil] at hin
    exact absurd hin hq
  | succ k ih =>
    intro s pat q hs hq hdisj hin
    match s with
    | [] =>
      rw [replaceAll_nil_left, List.infix_nil] at hin
      exact absurd hin hq
    | c :: cs =>
      match pat with
      | [] =>
        rw [replaceAll_pat_nil] at hin
        exact hin
      | p :: ps =>
        by_cases hp : (p :: ps) <+: (c :: cs)
        · rw [replaceAll_cons_pos c cs p ps rep hp] at hin
          have h2 : q <:+: replaceAll (cs.drop ps.length) (p :: ps) rep :=
            infixDisjointAppend q hq rep _ hdisj hin
          have hlen : (cs.drop ps.length).length ≤ k := by
            simp only [List.length_cons] at hs
            simp only [List.length_drop]
            omega
          have h3 : q <:+: cs.drop ps.length :=
            ih _ (p :: ps) q hlen hq hdisj h2
          have h4 : q <:+: cs :=
            h3.trans (List.drop_suffix ps.length cs).isInfix
          exact List.infix_cons h4
        · rw [replaceAll_cons_neg c cs p ps rep hp] at hin
          rcases List.infix_cons_iff.mp hin with hpre | hinf
          · rcases List.prefix_cons_iff.mp hpre with h0 | ⟨t, hqt, htp⟩
            · exact absurd h0 hq
            · subst hqt
              have ht : t <+: cs :=
                prefixThroughReplace rep hrep cs (p :: ps) t
                  (fun a ha hat => hdisj a ha (List.mem_cons_of_mem c hat)) htp
              exact (List.cons_prefix_cons.mpr ⟨rfl, ht⟩).isInfix
          · have hlen : cs.length ≤ k := by
              simp only [List.length_cons] at hs
              omega
            exact List.infix_cons (ih cs (p :: ps) q hlen hq hdisj hinf)

/-- A non-empty word disjoint from the (non-empty) replacement that is an
infix of `replaceAll s pat rep` is an infix of `s`. -/
theorem infixThroughReplaceAll (s pat rep q : Str) (hrep : rep ≠ [])
    (hq : q ≠ []) (hdisj : ∀ a ∈ rep, a ∉ q)
    (hin : q <:+: replaceAll s pat rep) : q <:+: s :=
  infixThroughReplaceFuel rep hrep s.length s pat q le_rfl hq hdisj hin

/-- After replacing every occurrence of a non-empty pattern with a
replacement sharing no character with it, the pattern no longer occurs. -/
theorem notInfixReplaceAllSelf (rep : Str) (hrep : rep ≠ []) :
    ∀ n : Nat, ∀ s pat : Str, s.length ≤ n → pat ≠ [] →
      (∀ a ∈ rep, a ∉ pat) → ¬ pat <:+: replaceAll s pat rep := by
  intro n
  induction n with
  | zero =>
    intro s pat hs hpat hdisj hin
    have hs0 : s = [] := List.length_eq_zero.mp (Nat.le_zero.mp hs)
    subst hs0
    rw [replaceAll_nil_left, List.infix_nil] at hin
    exact absurd hin hpat
  | succ k ih =>
    intro s pat hs hpat hdisj hin
    match s with
    | [] =>
      rw [replaceAll_nil_left, List.infix_nil] at hin
      exact absurd hin hpat
    | c :: cs =>
      match pat with
      | [] => exact absurd rfl hpat
      | p :: ps =>
        by_cases hp : (p :: ps) <+: (c :: cs)
        · rw [replaceAll_cons_pos c cs p ps rep hp] at hin
          have h2 : (p :: ps) <:+: replaceAll (cs.drop ps.length) (p :: ps) rep :=
            infixDisjointAppend (p :: ps) hpat rep _ hdisj hin
          have hlen : (cs.drop ps.length).length ≤ k := by
            simp only [List.length_cons] at hs
            simp only [List.length_drop]
            omega
          exact ih _ (p :: ps) hlen hpat hdisj h2
        · rw [replaceAll_cons_neg c cs p ps rep hp] at hin
          rcases List.infix_cons_iff.mp hin with hpre | hinf
          · rcases List.prefix_cons_iff.mp hpre with h0 | ⟨t, hqt, htp⟩
            · exact absurd h0 hpat
            · have hpc : p = c := by
                injection hqt
              have hpst : ps = t := by
                injection hqt
              have hps : ps <+: cs :=
                prefixThroughReplace rep hrep cs (p :: ps) ps
                  (fun a ha hat =>
                    hdisj a ha (List.mem_cons_of_mem p hat))
                  (hpst ▸ htp)
              exact hp (hpc ▸ List.cons_prefix_cons.mpr ⟨rfl, hps⟩)
          · have hlen : cs.length ≤ k := by
              simp only [List.length_cons] at hs
              omega
            exact ih cs (p :: ps) hlen hpat hdisj hinf

/-- The fixed placeholder substituted for the From value. -/
def redactedFrom : Str := str "<REDACTED (FROM)>"

/-- The fixed placeholder substituted for the To value. -/
def redactedTo : Str := str "<REDACTED (TO)>"

/-- `job.logf`: the composed line is prefixed with the job ID, then every
occurrence of the job's From value is replaced with the FROM placeholder
and afterwards every occurrence of its To value with the TO placeholder,
and the result is logged. -/
def logf (id fromURL toURL msg : Str) : Str :=
  replaceAll
    (replaceAll (str "[" ++ id ++ str "] " ++ msg) fromURL redactedFrom)
    toURL redactedTo

/-- C5 counterexample. First: `job.status` stores the raw `msg` argument,
so with From = "u1" and a message containing it, the stored status message
still contains the literal. Second: even the logged text can retain the
From literal — with From = "u<" and To = "v", replacing To inside
"[a] uv" produces "[a] u<REDACTED (TO)>", which contains "u<". -/
theorem redaction_gaps_concrete :
    (status ⟨0, 0, true, []⟩ 5 false (str "u1") []).1.statusMessage
      = str "u1" ∧
    (str "u1")
      <:+: (status ⟨0, 0, true, []⟩ 5 false (str "u1") []).1.statusMessage ∧
    (str "u<") <:+: logf (str "a") (str "u<") (str "v") (str "uv") := by
  refine ⟨rfl, ⟨[], [], rfl⟩, ?_⟩
  decide

/-- C5 (amended): redaction is applied to the logged text only, not to the
stored status message (which is the raw stage argument; all call sites
pass fixed stage literals). For the logged text, every occurrence of From
and then of To is replaced by the fixed placeholders; provided From and To
are non-empty and share no character with the placeholder strings, the
logged line contains neither literal as a substring. -/
theorem logf_redacts_logged_text_only
    (id fromURL toURL msg : Str) (r : StatusRecord) (now : Int) (ok : Bool)
    (details : List Str)
    (hf : fromURL ≠ []) (ht : toURL ≠ [])
    (hdf : ∀ a ∈ redactedFrom, a ∉ fromURL)
    (hdtf : ∀ a ∈ redactedTo, a ∉ fromURL)
    (hdt : ∀ a ∈ redactedTo, a ∉ toURL) :
    ¬ fromURL <:+: logf id fromURL toURL msg ∧
    ¬ toURL <:+: logf id fromURL toURL msg ∧
    (status r now ok msg details).1.statusMessage = msg := by
  refine ⟨?_, ?_, rfl⟩
  · intro hin
    have h1 : fromURL
        <:+: replaceAll (str "[" ++ id ++ str "] " ++ msg) fromURL redactedFrom :=
      infixThroughReplaceAll _ toURL redactedTo fromURL (by decide) hf hdtf hin
    exact notInfixReplaceAllSelf redactedFrom (by decide) _ _ _ le_rfl hf hdf h1
  · exact notInfixReplaceAllSelf redactedTo (by decide) _ _ _ le_rfl ht hdt

/-- Witness for C5's amended theorem at concrete values. -/
theorem logf_redacts_logged_text_only_witness :
    ¬ (str "u1") <:+: logf (str "a") (str "u1") (str "u2") (str "pull u1 u2") ∧
    ¬ (str "u2") <:+: logf (str "a") (str "u1") (str "u2") (str "pull u1 u2") ∧
    (status ⟨0, 0, true, []⟩ 1 true (str "pull u1 u2") []).1.statusMessage
      = str "pull u1 u2" := by
  obtain ⟨p1, p2, p3⟩ :=
    logf_redacts_logged_text_only (str "a") (str "u1") (str "u2")
      (str "pull u1 u2") ⟨0, 0, true, []⟩ 1 true []
      (by decide) (by decide) (by decide) (by decide) (by decide)
  exact ⟨p1, p2, p3⟩

/-- Modelled from the spec: the token-bucket rate limiter gating the
Syncing loop (`rate.NewLimiter(rate.Every(interval), 1)` of the external
golang.org/x/time/rate package, which is not part of this repository) has
capacity 1 and one token per refill interval, and `limit.Wait(ctx)` at the
top of every iteration — successful or failed alike — blocks until a token
is available, so consecutive iteration start times are separated by at
least the refill interval. A trace records those start times. -/
structure LimitedTrace (refill : Nat) where
  startTime : Nat → Nat
  spaced : ∀ i, startTime i + refill ≤ startTime (i + 1)

/-- The number of the first N sync iterations whose rate-limited start
time falls inside the observation window [a, a + w]. -/
def iterationsWithin {refill : Nat} (tr : LimitedTrace refill)
    (N a w : Nat) : Nat :=
  ((Finset.range N).filter
    (fun i => a ≤ tr.startTime i ∧ tr.startTime i ≤ a + w)).card

/-- Start times of a rate-limited trace grow by at least one refill
interval per iteration. -/
theorem limitedTrace_gap {refill : Nat} (tr : LimitedTrace refill) :
    ∀ d i : Nat, tr.startTime i + d * refill ≤ tr.startTime (i + d) := by
  intro d
  induction d with
  | zero => intro i; simp
  | succ e ih =>
    intro i
    have h1 := ih i
    have h2 := tr.spaced (i + e)
    have hcalc : tr.startTime i + (e + 1) * refill
        ≤ tr.startTime (i + e + 1) := by
      calc tr.startTime i + (e + 1) * refill
          = (tr.startTime i + e * refill) + refill := by ring
        _ ≤ tr.startTime (i + e) + refill := Nat.add_le_add_right h1 refill
        _ ≤ tr.startTime (i + e + 1) := h2
    exact hcalc

/-- C9: every Syncing iteration first blocks on the capacity-1 token
bucket, so within any observation window of length w a job attempts at
most w / refill + 1 sync iterations; failures have no faster retry path
because the trace constrains all iterations alike. -/
theorem sync_iterations_rate_bound {refill : Nat} (tr : LimitedTrace refill)
    (N a w : Nat) (hpos : 0 < refill) :
    iterationsWithin tr N a w ≤ w / refill + 1 := by
  classical
  unfold iterationsWithin
  set S := (Finset.range N).filter
    (fun i => a ≤ tr.startTime i ∧ tr.startTime i ≤ a + w) with hS
  rcases Finset.eq_empty_or_nonempty S with he | hne
  · rw [he]
    simp
  · set m := S.min' hne with hm
    have hmS : m ∈ S := S.min'_mem hne
    have hsub : S ⊆ Finset.Icc m (m + w / refill) := by
      intro j hj
      have hmj : m ≤ j := S.min'_le j hj
      have hjw : tr.startTime j ≤ a + w := (Finset.mem_filter.mp hj).2.2
      have hma : a ≤ tr.startTime m := (Finset.mem_filter.mp hmS).2.1
      have hgap := limitedTrace_gap tr (j - m) m
      rw [Nat.add_sub_cancel' hmj] at hgap
      have hmul : (j - m) * refill ≤ w := by omega
      have hdiv : j - m ≤ w / refill := (Nat.le_div_iff_mul_le hpos).mpr hmul
      have hub : j ≤ m + w / refill := by
        revert hdiv hmj
        generalize w / refill = D
        intro hdiv hmj
        omega
      exact Finset.mem_Icc.mpr ⟨hmj, hub⟩
    calc S.card ≤ (Finset.Icc m (m + w / refill)).card :=
          Finset.card_le_card hsub
      _ = w / refill + 1 := by
          rw [Nat.card_Icc]
          generalize w / refill = D
          omega

/-- A trace firing exactly once per 60-second interval. -/
def sampleTrace : LimitedTrace 60 :=
  ⟨fun i => 60 * i, fun i => by
    show 60 * i + 60 ≤ 60 * (i + 1)
    omega⟩

/-- Witness for C9 on a concrete 60-second trace and a 120-second
window. -/
theorem sync_iterations_rate_bound_witness :
    0 < 60 ∧ iterationsWithin sampleTrace 10 0 120 ≤ 120 / 60 + 1 :=
  ⟨by decide, sync_iterations_rate_bound sampleTrace 10 0 120 (by decide)⟩

end Reposync
